import Mathlib

/-!
Verification of the sweep-and-analysis core of `pluto_beamforming.py`.

The development shallowly embeds the program's core:
* the HPBW estimator `annotate_results` (phase-domain part, lines 117-142),
  over exact rationals;
* the beam-geometry conversion (lines 145-148) over the reals;
* the sweep state machine `update` / `start_sweep` (lines 180-232), with the
  radio, the spectral pipeline and the Qt timer modelled as an explicit
  environment and an explicit "next scheduled action".
-/

namespace PlutoBeam

/-! ### `np.argmax` over a rational list

`np.argmax` returns the index of the first occurrence of the maximum. -/

def argmaxAux : List ℚ → ℕ → ℕ → ℚ → ℕ
  | [], _, best, _ => best
  | a :: t, i, best, bestv =>
      if bestv < a then argmaxAux t (i + 1) i a else argmaxAux t (i + 1) best bestv

def argmax : List ℚ → ℕ
  | [] => 0
  | a :: t => argmaxAux t 1 0 a

/-! ### `np.interp` restricted to a two-point table

Model of numpy's `arr_interp` for `len(xp) == 2`, including its behaviour on a
non-increasing `xp` (the boundary checks `key > xp[-1] → fp[-1]` and
`key < xp[0] → fp[0]` are performed before any interpolation). -/

def np_interp (key x0 x1 f0 f1 : ℚ) : ℚ :=
  if x1 < key then f1
  else if key < x0 then f0
  else if x1 ≤ key then f1
  else if key = x0 then f0
  else f0 + (key - x0) * (f1 - f0) / (x1 - x0)

/-! ### The −3 dB crossing scans (lines 129-141)

`scanLeft phases amps half dflt k` runs
`for i in range(k - 1, -1, -1): if amps[i] < half: left = np.interp(...); break`
with initial `left = dflt`; it is called with `k = idx_max`.

`scanRight phases amps half dflt i` runs
`for i in range(idx_max + 1, len(amps)): if amps[i] < half: right = np.interp(...); break`
with initial `right = dflt`; it is called with `i = idx_max + 1`. -/

def scanLeft (phases amps : List ℚ) (half dflt : ℚ) : ℕ → ℚ
  | 0 => dflt
  | k + 1 =>
      if amps.getD k 0 < half then
        np_interp half (amps.getD k 0) (amps.getD (k + 1) 0)
          (phases.getD k 0) (phases.getD (k + 1) 0)
      else scanLeft phases amps half dflt k

def scanRight (phases amps : List ℚ) (half dflt : ℚ) (i : ℕ) : ℚ :=
  if i < amps.length then
    if amps.getD i 0 < half then
      np_interp half (amps.getD (i - 1) 0) (amps.getD i 0)
        (phases.getD (i - 1) 0) (phases.getD i 0)
    else scanRight phases amps half dflt (i + 1)
  else dflt
termination_by amps.length - i
decreasing_by simp_wf; omega

/-! ### The phase-domain part of `annotate_results` (lines 117-142) -/

structure PhaseSummary where
  peak_phi : ℚ
  peak_db : ℚ
  half_db : ℚ
  left : ℚ
  right : ℚ
  hpbw_phase : ℚ
deriving DecidableEq, Repr

def annotate_core (phases amps : List ℚ) : Option PhaseSummary :=
  if amps.length < 5 then none
  else
    let idx_max := argmax amps
    let peak_db := amps.getD idx_max 0
    let peak_phi := phases.getD idx_max 0
    let half_db := peak_db - 3
    let left := scanLeft phases amps half_db (phases.getD 0 0) idx_max
    let right := scanRight phases amps half_db (phases.getD (phases.length - 1) 0) (idx_max + 1)
    some { peak_phi := peak_phi, peak_db := peak_db, half_db := half_db,
           left := left, right := right, hpbw_phase := right - left }

/-! ### Beam geometry conversion (lines 145-148)

`s = np.clip((np.deg2rad(phase) * lam) / (2 * np.pi * d), -1, 1)`;
`theta = np.degrees(np.arcsin(s))`. -/

noncomputable def spatial_sine (phase_deg lam d : ℝ) : ℝ :=
  min 1 (max (-1) ((phase_deg * Real.pi / 180) * lam / (2 * Real.pi * d)))

noncomputable def phase_to_angle (phase_deg lam d : ℝ) : ℝ :=
  Real.arcsin (spatial_sine phase_deg lam d) * 180 / Real.pi

/-! ### The sweep state machine (lines 105-242)

The sweep constants (`-180`, `180`, `phase_step = 2`) are abstracted into a
configuration record; the source instantiates it with those literals.

The radio and the spectral pipeline are an explicit per-step environment:
`txRes` is the outcome of the `sdr_tx.tx` call, `rx k` the outcome of the
`k`-th `sdr_rx.rx()` call of the step (calls 0-19 are the flush, call 20 the
capture, call 21 the capture whose mean is subtracted), and `measure` the
pure spectral pipeline (Hann window, FFT, integrated power, `20*log10`) taken
as an abstract function of the analysed block, which no claim inspects. -/

structure SweepConfig where
  start : ℚ
  stop : ℚ
  step : ℚ
deriving DecidableEq, Repr

def defaultConfig : SweepConfig := { start := -180, stop := 180, step := 2 }

inductive RadioError where
  | mk : ℕ → RadioError
deriving DecidableEq, Repr

structure Cplx where
  re : ℚ
  im : ℚ
deriving DecidableEq, Repr

def Cplx.sub (x y : Cplx) : Cplx := ⟨x.re - y.re, x.im - y.im⟩

def Cplx.divQ (x : Cplx) (q : ℚ) : Cplx := ⟨x.re / q, x.im / q⟩

/-- `np.mean` of a complex vector: componentwise sum divided by the length. -/
def cmean (l : List Cplx) : Cplx :=
  ⟨(l.map Cplx.re).sum / l.length, (l.map Cplx.im).sum / l.length⟩

/-- Lines 190-191: `samples = rx_a - np.mean(rx_b); samples /= 2**11`. -/
def dcNormalize (a b : List Cplx) : List Cplx :=
  a.map fun s => (s.sub (cmean b)).divQ (2 ^ 11)

inductive SweepMode where
  | one_shot
  | continuous
deriving DecidableEq, Repr

structure StepEnv where
  txRes : Except RadioError Unit
  rx : ℕ → Except RadioError (List Cplx)
  measure : List Cplx → ℚ

structure St where
  cur_phase : ℚ
  ph_hist : List ℚ
  amp_hist : List ℚ
  mode : SweepMode
  summary : Option PhaseSummary
deriving DecidableEq, Repr

/-- What the step schedules with `QTimer.singleShot` (or nothing at all). -/
inductive Next where
  | update
  | startSweep
  | halt
deriving DecidableEq, Repr

structure StepOut where
  st : St
  txPhase : ℚ
  block : List Cplx
  next : Next
deriving DecidableEq, Repr

/-- The flush loop, lines 188-189: `for _ in range(20): sdr_rx.rx()`,
starting at call index `i` with `n` calls remaining. -/
def flushRx (e : StepEnv) : ℕ → ℕ → Except RadioError Unit
  | _, 0 => .ok ()
  | i, n + 1 =>
      match e.rx i with
      | .error er => .error er
      | .ok _ => flushRx e (i + 1) n

/-- `annotate_results`'s effect on the stored annotation: when fewer than 5
samples are recorded it returns early and the previous annotation stays. -/
def newSummary (old : Option PhaseSummary) (phases amps : List ℚ) : Option PhaseSummary :=
  match annotate_core phases amps with
  | none => old
  | some s => some s

/-- One `update()` callback, lines 180-221.  A failing radio call propagates
as an exception before any of the sweep state is mutated. -/
def update (cfg : SweepConfig) (e : StepEnv) (st : St) : Except RadioError StepOut :=
  match e.txRes with
  | .error er => .error er
  | .ok _ =>
    match flushRx e 0 20 with
    | .error er => .error er
    | .ok _ =>
      match e.rx 20 with
      | .error er => .error er
      | .ok a =>
        match e.rx 21 with
        | .error er => .error er
        | .ok b =>
          let block := dcNormalize a b
          let db := e.measure block
          let ph_hist := st.ph_hist ++ [st.cur_phase]
          let amp_hist := st.amp_hist ++ [db]
          let cur := st.cur_phase + cfg.step
          if cfg.stop < cur then
            let st' : St := ⟨cur, ph_hist, amp_hist, st.mode, newSummary st.summary ph_hist amp_hist⟩
            let nx : Next := match st.mode with
              | .continuous => .startSweep
              | .one_shot => .halt
            .ok ⟨st', st.cur_phase, block, nx⟩
          else
            let st' : St := ⟨cur, ph_hist, amp_hist, st.mode, st.summary⟩
            .ok ⟨st', st.cur_phase, block, .update⟩

/-- The observable outcome of one scheduled `update()` under the Qt event
loop: on an exception the sweep state is untouched, nothing is scheduled and
the error surfaces; otherwise the new state and the scheduled action. -/
def runStep (cfg : SweepConfig) (e : StepEnv) (st : St) :
    St × Option Next × Option RadioError :=
  match update cfg e st with
  | .error er => (st, none, some er)
  | .ok out => (out.st, some out.next, none)

/-- `start_sweep`, lines 224-232: reset the phase, clear both histories and
the annotation graphics, and schedule `update`. -/
def start_sweep (cfg : SweepConfig) (st : St) : St × Next :=
  ({ st with cur_phase := cfg.start, ph_hist := [], amp_hist := [], summary := none },
   Next.update)

/-- Run scheduled `update()` callbacks (environment indexed by the number of
recorded samples) until the step schedules something other than `update`,
with explicit fuel; `none` means the fuel ran out mid-sweep. -/
def runUpdates (cfg : SweepConfig) (env : ℕ → StepEnv) :
    ℕ → St → Option (Except RadioError (St × Next))
  | 0, _ => none
  | fuel + 1, st =>
      match update cfg (env st.ph_hist.length) st with
      | .error er => some (.error er)
      | .ok out =>
          match out.next with
          | .update => runUpdates cfg env fuel out.st
          | nx => some (.ok (out.st, nx))

/-! ### Helper lemmas about `argmax` -/

theorem argmaxAux_spec (A : List ℚ) (t : List ℚ) :
    ∀ (i best : ℕ) (bestv : ℚ),
      A.drop i = t → best < A.length → A.getD best 0 = bestv →
      (∀ j, j < i → A.getD j 0 ≤ bestv) →
      argmaxAux t i best bestv < A.length ∧
        ∀ j, j < A.length → A.getD j 0 ≤ A.getD (argmaxAux t i best bestv) 0 := by
  induction t with
  | nil =>
      intro i best bestv hdrop hb hbv hmax
      have hlen : A.length ≤ i := List.drop_eq_nil_iff.mp hdrop
      simp only [argmaxAux]
      exact ⟨hb, fun j hj => hbv ▸ hmax j (lt_of_lt_of_le hj hlen)⟩
  | cons a t ih =>
      intro i best bestv hdrop hb hbv hmax
      have hi : i < A.length := by
        by_contra hcon
        push_neg at hcon
        rw [List.drop_eq_nil_iff.mpr hcon] at hdrop
        exact List.cons_ne_nil a t hdrop.symm
      have hAi : A.getD i 0 = a := by
        have h0 := List.getElem?_drop A i 0
        rw [hdrop] at h0
        simp only [List.getElem?_cons_zero, Nat.add_zero] at h0
        rw [List.getD_eq_getElem A 0 hi]
        rw [List.getElem?_eq_getElem hi] at h0
        exact (Option.some.inj h0).symm
      have hdrop' : A.drop (i + 1) = t := by
        rw [← List.tail_drop, hdrop, List.tail_cons]
      by_cases hc : bestv < a
      · simp only [argmaxAux, if_pos hc]
        refine ih (i + 1) i a hdrop' hi hAi ?_
        intro j hj
        rcases Nat.lt_succ_iff_lt_or_eq.mp hj with h | h
        · exact le_of_lt (lt_of_le_of_lt (hmax j h) hc)
        · subst h; exact le_of_eq hAi
      · simp only [argmaxAux, if_neg hc]
        refine ih (i + 1) best bestv hdrop' hb hbv ?_
        intro j hj
        rcases Nat.lt_succ_iff_lt_or_eq.mp hj with h | h
        · exact hmax j h
        · subst h; rw [hAi]; exact le_of_not_lt hc

theorem argmax_lt_length (A : List ℚ) (h : A ≠ []) : argmax A < A.length := by
  cases A with
  | nil => exact absurd rfl h
  | cons a t =>
      have := argmaxAux_spec (a :: t) t 1 0 a (by rfl) (by simp) (by rfl)
        (fun j hj => by interval_cases j; simp)
      exact this.1

theorem getD_le_argmax (A : List ℚ) (j : ℕ) (hj : j < A.length) :
    A.getD j 0 ≤ A.getD (argmax A) 0 := by
  cases A with
  | nil => simp at hj
  | cons a t =>
      have := argmaxAux_spec (a :: t) t 1 0 a (by rfl) (by simp) (by rfl)
        (fun j hj => by interval_cases j; simp)
      exact this.2 j hj

/-! ### Access lemmas for strictly increasing phase lists -/

theorem pairwise_getD_lt (l : List ℚ) (h : l.Pairwise (· < ·)) {i j : ℕ}
    (hij : i < j) (hj : j < l.length) : l.getD i 0 < l.getD j 0 := by
  have hi : i < l.length := lt_trans hij hj
  rw [List.getD_eq_getElem l 0 hi, List.getD_eq_getElem l 0 hj]
  exact List.pairwise_iff_get.mp h ⟨i, hi⟩ ⟨j, hj⟩ hij

theorem pairwise_getD_le (l : List ℚ) (h : l.Pairwise (· < ·)) {i j : ℕ}
    (hij : i ≤ j) (hj : j < l.length) : l.getD i 0 ≤ l.getD j 0 := by
  rcases lt_or_eq_of_le hij with h' | h'
  · exact le_of_lt (pairwise_getD_lt l h h' hj)
  · subst h'; exact le_refl _

/-! ### Behaviour of the two-point `np.interp` -/

theorem np_interp_of_lt (key x0 x1 f0 f1 : ℚ) (h : x1 < key) :
    np_interp key x0 x1 f0 f1 = f1 := by
  rw [np_interp, if_pos h]

theorem np_interp_mem (key x0 x1 f0 f1 : ℚ) (h0 : x0 < key) (h1 : key ≤ x1)
    (hf : f0 ≤ f1) :
    f0 ≤ np_interp key x0 x1 f0 f1 ∧ np_interp key x0 x1 f0 f1 ≤ f1 := by
  rw [np_interp, if_neg (not_lt.mpr h1), if_neg (not_lt.mpr h0.le)]
  by_cases h2 : x1 ≤ key
  · rw [if_pos h2]
    exact ⟨hf, le_refl f1⟩
  · rw [if_neg h2, if_neg (ne_of_gt h0)]
    push_neg at h2
    have hx : 0 < x1 - x0 := by linarith
    have hd : 0 ≤ f1 - f0 := by linarith
    constructor
    · have hnum : 0 ≤ (key - x0) * (f1 - f0) / (x1 - x0) :=
        div_nonneg (mul_nonneg (by linarith) hd) hx.le
      linarith
    · have h3 : (key - x0) * (f1 - f0) / (x1 - x0) ≤ f1 - f0 := by
        rw [div_le_iff₀ hx]
        nlinarith
      linarith

theorem np_interp_cross (key x0 x1 f0 f1 : ℚ) (h0 : x0 < key) (h1 : key ≤ x1) :
    (np_interp key x0 x1 f0 f1 - f0) * (x1 - x0) = (key - x0) * (f1 - f0) := by
  rw [np_interp, if_neg (not_lt.mpr h1), if_neg (not_lt.mpr h0.le)]
  by_cases h2 : x1 ≤ key
  · rw [if_pos h2]
    have hx : key = x1 := le_antisymm h1 h2
    subst hx
    ring
  · rw [if_neg h2, if_neg (ne_of_gt h0)]
    push_neg at h2
    have hx : x1 - x0 ≠ 0 := ne_of_gt (by linarith)
    field_simp
    ring

/-! ### Characterization of the crossing scans -/

/-- The downward scan either finds no sample below the threshold and keeps the
default, or stops at the largest index below `k` whose power is below the
threshold and interpolates there. -/
theorem scanLeft_spec (phases amps : List ℚ) (half dflt : ℚ) (k : ℕ) :
    ((∀ j, j < k → ¬ amps.getD j 0 < half) ∧
        scanLeft phases amps half dflt k = dflt) ∨
      (∃ i, i < k ∧ amps.getD i 0 < half ∧
        (∀ j, i < j → j < k → ¬ amps.getD j 0 < half) ∧
        scanLeft phases amps half dflt k =
          np_interp half (amps.getD i 0) (amps.getD (i + 1) 0)
            (phases.getD i 0) (phases.getD (i + 1) 0)) := by
  induction k with
  | zero => exact Or.inl ⟨fun j hj => absurd hj (Nat.not_lt_zero j), rfl⟩
  | succ k ih =>
      by_cases hc : amps.getD k 0 < half
      · refine Or.inr ⟨k, Nat.lt_succ_self k, hc, ?_, ?_⟩
        · intro j hj hj'
          omega
        · simp only [scanLeft, if_pos hc]
      · rcases ih with ⟨hnone, he⟩ | ⟨i, hik, hi, hbet, he⟩
        · refine Or.inl ⟨?_, ?_⟩
          · intro j hj
            rcases Nat.lt_succ_iff_lt_or_eq.mp hj with h | h
            · exact hnone j h
            · subst h; exact hc
          · simp only [scanLeft, if_neg hc]; exact he
        · refine Or.inr ⟨i, by omega, hi, ?_, ?_⟩
          · intro j hj hj'
            rcases Nat.lt_succ_iff_lt_or_eq.mp hj' with h | h
            · exact hbet j hj h
            · subst h; exact hc
          · simp only [scanLeft, if_neg hc]; exact he

/-- The upward scan either finds no sample below the threshold and keeps the
default, or stops at the smallest index at or above `i` whose power is below
the threshold and calls `np.interp` there. -/
theorem scanRight_spec (phases amps : List ℚ) (half dflt : ℚ) (i : ℕ) :
    ((∀ j, i ≤ j → j < amps.length → ¬ amps.getD j 0 < half) ∧
        scanRight phases amps half dflt i = dflt) ∨
      (∃ j, i ≤ j ∧ j < amps.length ∧ amps.getD j 0 < half ∧
        (∀ m, i ≤ m → m < j → ¬ amps.getD m 0 < half) ∧
        scanRight phases amps half dflt i =
          np_interp half (amps.getD (j - 1) 0) (amps.getD j 0)
            (phases.getD (j - 1) 0) (phases.getD j 0)) := by
  have H : ∀ n i, amps.length - i ≤ n →
      ((∀ j, i ≤ j → j < amps.length → ¬ amps.getD j 0 < half) ∧
          scanRight phases amps half dflt i = dflt) ∨
        (∃ j, i ≤ j ∧ j < amps.length ∧ amps.getD j 0 < half ∧
          (∀ m, i ≤ m → m < j → ¬ amps.getD m 0 < half) ∧
          scanRight phases amps half dflt i =
            np_interp half (amps.getD (j - 1) 0) (amps.getD j 0)
              (phases.getD (j - 1) 0) (phases.getD j 0)) := by
    intro n
    induction n with
    | zero =>
        intro i hi
        have hil : ¬ i < amps.length := by omega
        refine Or.inl ⟨fun j hj hj' => by omega, ?_⟩
        rw [scanRight, if_neg hil]
    | succ n ihn =>
        intro i hi
        by_cases hil : i < amps.length
        · by_cases hc : amps.getD i 0 < half
          · refine Or.inr ⟨i, le_refl i, hil, hc, fun m hm hm' => by omega, ?_⟩
            rw [scanRight, if_pos hil, if_pos hc]
          · have hrec := ihn (i + 1) (by omega)
            have hstep : scanRight phases amps half dflt i =
                scanRight phases amps half dflt (i + 1) := by
              rw [scanRight, if_pos hil, if_neg hc]
            rcases hrec with ⟨hnone, he⟩ | ⟨j, hij, hjl, hcj, hbet, he⟩
            · refine Or.inl ⟨?_, hstep ▸ he⟩
              intro j hj hj'
              rcases Nat.lt_or_ge i j with h | h
              · exact hnone j (by omega) hj'
              · have : j = i := by omega
                subst this; exact hc
            · refine Or.inr ⟨j, by omega, hjl, hcj, ?_, hstep ▸ he⟩
              intro m hm hm'
              rcases Nat.lt_or_ge i m with h | h
              · exact hbet m (by omega) hm'
              · have : m = i := by omega
                subst this; exact hc
        · refine Or.inl ⟨fun j hj hj' => by omega, ?_⟩
          rw [scanRight, if_neg hil]
  exact H (amps.length - i) i (le_refl _)

/-- Unfolding of a successful `annotate_core` call into its components. -/
theorem annotate_core_eq (phases amps : List ℚ) (s : PhaseSummary)
    (h : annotate_core phases amps = some s) :
    5 ≤ amps.length ∧
      s.peak_db = amps.getD (argmax amps) 0 ∧
      s.peak_phi = phases.getD (argmax amps) 0 ∧
      s.half_db = amps.getD (argmax amps) 0 - 3 ∧
      s.left = scanLeft phases amps s.half_db (phases.getD 0 0) (argmax amps) ∧
      s.right = scanRight phases amps s.half_db
        (phases.getD (phases.length - 1) 0) (argmax amps + 1) ∧
      s.hpbw_phase = s.right - s.left := by
  rw [annotate_core] at h
  by_cases hl : amps.length < 5
  · rw [if_pos hl] at h
    exact absurd h (by simp)
  · rw [if_neg hl] at h
    have hs := (Option.some.inj h).symm
    subst hs
    exact ⟨le_of_not_lt hl, rfl, rfl, rfl, rfl, rfl, rfl⟩

/-- Claim C10: for every input to the HPBW estimator with at least 5 samples
(so that a summary is produced) and strictly increasing phases, the left bound
is at most the peak phase, the right bound is at least the peak phase, both
bounds lie within the first and last sample's phases, and `hpbw_phase_deg` is
non-negative. -/
theorem hpbw_bounds_of_sorted (phases amps : List ℚ) (s : PhaseSummary)
    (hlen : phases.length = amps.length)
    (hsorted : phases.Pairwise (· < ·))
    (h : annotate_core phases amps = some s) :
    phases.getD 0 0 ≤ s.left ∧ s.left ≤ s.peak_phi ∧ s.peak_phi ≤ s.right ∧
      s.right ≤ phases.getD (phases.length - 1) 0 ∧ 0 ≤ s.hpbw_phase := by
  obtain ⟨h5, hpdb, hpphi, hhalf, hleft, hright, hw⟩ := annotate_core_eq phases amps s h
  have hAne : amps ≠ [] := by
    intro hnil
    rw [hnil] at h5
    simp at h5
  have hMl : argmax amps < amps.length := argmax_lt_length amps hAne
  have hMpl : argmax amps < phases.length := by omega
  have hhalf_lt : s.half_db < amps.getD (argmax amps) 0 := by
    rw [hhalf]; linarith
  have hleft_bounds : phases.getD 0 0 ≤ s.left ∧
      s.left ≤ phases.getD (argmax amps) 0 := by
    rcases scanLeft_spec phases amps s.half_db (phases.getD 0 0) (argmax amps) with
      ⟨_, he⟩ | ⟨i, hiM, hci, hbet, he⟩
    · rw [hleft, he]
      exact ⟨le_refl _, pairwise_getD_le phases hsorted (Nat.zero_le _) hMpl⟩
    · have hip1 : i + 1 ≤ argmax amps := hiM
      have hip1l : i + 1 < phases.length := by omega
      have hx1 : s.half_db ≤ amps.getD (i + 1) 0 := by
        rcases lt_or_eq_of_le hip1 with h' | h'
        · exact le_of_not_lt (hbet (i + 1) (Nat.lt_succ_self i) h')
        · rw [h']; exact hhalf_lt.le
      have hf01 : phases.getD i 0 ≤ phases.getD (i + 1) 0 :=
        pairwise_getD_le phases hsorted (Nat.le_succ i) hip1l
      have hmem := np_interp_mem s.half_db (amps.getD i 0) (amps.getD (i + 1) 0)
        (phases.getD i 0) (phases.getD (i + 1) 0) hci hx1 hf01
      rw [hleft, he]
      constructor
      · exact le_trans (pairwise_getD_le phases hsorted (Nat.zero_le i) (by omega)) hmem.1
      · exact le_trans hmem.2 (pairwise_getD_le phases hsorted hip1 hMpl)
  have hright_bounds : phases.getD (argmax amps) 0 ≤ s.right ∧
      s.right ≤ phases.getD (phases.length - 1) 0 := by
    rcases scanRight_spec phases amps s.half_db (phases.getD (phases.length - 1) 0)
        (argmax amps + 1) with ⟨_, he⟩ | ⟨j, hij, hjl, hcj, _, he⟩
    · rw [hright, he]
      exact ⟨pairwise_getD_le phases hsorted (by omega) (by omega), le_refl _⟩
    · have hjp : j < phases.length := by omega
      have hfj : np_interp s.half_db (amps.getD (j - 1) 0) (amps.getD j 0)
          (phases.getD (j - 1) 0) (phases.getD j 0) = phases.getD j 0 :=
        np_interp_of_lt _ _ _ _ _ hcj
      rw [hright, he, hfj]
      exact ⟨pairwise_getD_le phases hsorted (by omega) hjp,
             pairwise_getD_le phases hsorted (by omega) (by omega)⟩
  have hl2 : s.left ≤ s.peak_phi := by rw [hpphi]; exact hleft_bounds.2
  have hr1 : s.peak_phi ≤ s.right := by rw [hpphi]; exact hright_bounds.1
  refine ⟨hleft_bounds.1, hl2, hr1, hright_bounds.2, ?_⟩
  rw [hw]
  linarith

/-- Claim C4: the left half-power bound scans indices below the peak index in
decreasing order; the first index (in that order) whose power is below the
threshold yields the crossing by linear interpolation between that index and
its neighbour toward the peak — the interpolated power at the crossing equals
the threshold exactly, stated divisionlessly as
`(left - phase_i) * (amp_{i+1} - amp_i) = (half - amp_i) * (phase_{i+1} - phase_i)`;
if no index below the peak is under the threshold, the left bound is the first
sample's phase. -/
theorem left_crossing_spec (phases amps : List ℚ) (s : PhaseSummary)
    (h : annotate_core phases amps = some s) :
    (∃ i, i < argmax amps ∧ amps.getD i 0 < s.half_db ∧
      (∀ j, i < j → j < argmax amps → ¬ amps.getD j 0 < s.half_db) ∧
      s.half_db ≤ amps.getD (i + 1) 0 ∧
      (s.left - phases.getD i 0) * (amps.getD (i + 1) 0 - amps.getD i 0) =
        (s.half_db - amps.getD i 0) * (phases.getD (i + 1) 0 - phases.getD i 0)) ∨
    ((∀ i, i < argmax amps → ¬ amps.getD i 0 < s.half_db) ∧
      s.left = phases.getD 0 0) := by
  obtain ⟨h5, hpdb, hpphi, hhalf, hleft, hright, hw⟩ := annotate_core_eq phases amps s h
  have hhalf_lt : s.half_db < amps.getD (argmax amps) 0 := by
    rw [hhalf]; linarith
  rcases scanLeft_spec phases amps s.half_db (phases.getD 0 0) (argmax amps) with
    ⟨hnone, he⟩ | ⟨i, hiM, hci, hbet, he⟩
  · exact Or.inr ⟨hnone, hleft.trans he⟩
  · have hip1 : i + 1 ≤ argmax amps := hiM
    have hx1 : s.half_db ≤ amps.getD (i + 1) 0 := by
      rcases lt_or_eq_of_le hip1 with h' | h'
      · exact le_of_not_lt (hbet (i + 1) (Nat.lt_succ_self i) h')
      · rw [h']; exact hhalf_lt.le
    refine Or.inl ⟨i, hiM, hci, hbet, hx1, ?_⟩
    rw [hleft, he]
    exact np_interp_cross s.half_db (amps.getD i 0) (amps.getD (i + 1) 0)
      (phases.getD i 0) (phases.getD (i + 1) 0) hci hx1

/-! ### Radio-failure behaviour of a step -/

theorem flushRx_ok (e : StepEnv) :
    ∀ n i, (∀ j, j < n → ∃ c, e.rx (i + j) = .ok c) → flushRx e i n = .ok () := by
  intro n
  induction n with
  | zero => intro i _; rfl
  | succ n ih =>
      intro i hok
      obtain ⟨c, hc⟩ := hok 0 (Nat.succ_pos n)
      rw [Nat.add_zero] at hc
      simp only [flushRx, hc]
      refine ih (i + 1) ?_
      intro j hj
      obtain ⟨c', hc'⟩ := hok (j + 1) (by omega)
      exact ⟨c', by rw [show i + 1 + j = i + (j + 1) from by omega]; exact hc'⟩

theorem flushRx_err (e : StepEnv) (er : RadioError) :
    ∀ k n i, k < n → e.rx (i + k) = .error er →
      (∀ j, j < k → ∃ c, e.rx (i + j) = .ok c) → flushRx e i n = .error er := by
  intro k
  induction k with
  | zero =>
      intro n i hkn herr _
      cases n with
      | zero => omega
      | succ n =>
          rw [Nat.add_zero] at herr
          simp only [flushRx, herr]
  | succ k ih =>
      intro n i hkn herr hok
      cases n with
      | zero => omega
      | succ n =>
          obtain ⟨c, hc⟩ := hok 0 (Nat.succ_pos k)
          rw [Nat.add_zero] at hc
          simp only [flushRx, hc]
          refine ih n (i + 1) (by omega) ?_ ?_
          · rw [show i + 1 + k = i + (k + 1) from by omega]
            exact herr
          · intro j hj
            obtain ⟨c', hc'⟩ := hok (j + 1) (by omega)
            exact ⟨c', by rw [show i + 1 + j = i + (j + 1) from by omega]; exact hc'⟩

/-- A radio failure during the step: either the transmit call raises, or the
`k`-th receive call of the step raises after all earlier receive calls
succeeded (calls 0-19 are the flush, 20 and 21 the two captures). -/
def failsWith (e : StepEnv) (er : RadioError) : Prop :=
  e.txRes = .error er ∨
    (e.txRes = .ok () ∧ ∃ k, k < 22 ∧ e.rx k = .error er ∧
      ∀ j, j < k → ∃ c, e.rx j = .ok c)

/-- Claim C3: if the radio transmit or receive operation fails during a step,
the step aborts: the exception propagates out of `update` (error surfaced),
the sweep state is unchanged — in particular no sample is recorded for that
phase — and nothing further is scheduled, i.e. the machine is left idle. -/
theorem radio_failure_aborts (cfg : SweepConfig) (e : StepEnv) (st : St)
    (er : RadioError) (h : failsWith e er) :
    update cfg e st = .error er ∧ runStep cfg e st = (st, none, some er) := by
  have hupd : update cfg e st = .error er := by
    rcases h with htx | ⟨htx, k, hk22, herr, hok⟩
    · rw [update, htx]
    · rw [update, htx]
      by_cases hk20 : k < 20
      · have hf : flushRx e 0 20 = .error er :=
          flushRx_err e er k 20 0 hk20 (by simpa using herr)
            (fun j hj => by simpa using hok j hj)
        simp only [hf]
      · have hf : flushRx e 0 20 = .ok () :=
          flushRx_ok e 20 0 (fun j hj => by simpa using hok j (by omega))
        simp only [hf]
        by_cases hk20' : k = 20
        · subst hk20'
          simp only [herr]
        · have hk21 : k = 21 := by omega
          subst hk21
          obtain ⟨a, ha⟩ := hok 20 (by omega)
          simp only [ha, herr]
  refine ⟨hupd, ?_⟩
  rw [runStep, hupd]

def cfgW : SweepConfig := ⟨-10, 10, 10⟩

def envOk : StepEnv := ⟨.ok (), fun _ => .ok [⟨1, 0⟩], fun _ => 0⟩

def envTxFail : StepEnv := ⟨.error (.mk 7), fun _ => .ok [⟨1, 0⟩], fun _ => 0⟩

def stW : St := ⟨5, [1], [2], .one_shot, none⟩

theorem radio_failure_aborts_witness :
    failsWith envTxFail (.mk 7) ∧
      update cfgW envTxFail stW = .error (.mk 7) ∧
      runStep cfgW envTxFail stW = (stW, none, some (.mk 7)) :=
  ⟨Or.inl rfl, radio_failure_aborts cfgW envTxFail stW (.mk 7) (Or.inl rfl)⟩

/-! ### Behaviour of a successful step -/

theorem update_ok_spec (cfg : SweepConfig) (e : StepEnv) (st : St) (out : StepOut)
    (h : update cfg e st = .ok out) :
    out.st.ph_hist = st.ph_hist ++ [st.cur_phase] ∧
      out.st.amp_hist = st.amp_hist ++ [e.measure out.block] ∧
      out.txPhase = st.cur_phase ∧
      out.st.cur_phase = st.cur_phase + cfg.step ∧
      out.st.mode = st.mode ∧
      (∃ a b, e.rx 20 = .ok a ∧ e.rx 21 = .ok b ∧ out.block = dcNormalize a b) ∧
      ((out.st.cur_phase ≤ cfg.stop ∧ out.next = .update ∧
          out.st.summary = st.summary) ∨
        (cfg.stop < out.st.cur_phase ∧
          out.st.summary = newSummary st.summary out.st.ph_hist out.st.amp_hist ∧
          (st.mode = .continuous → out.next = .startSweep) ∧
          (st.mode = .one_shot → out.next = .halt))) := by
  rw [update] at h
  cases htx : e.txRes with
  | error er => rw [htx] at h; exact absurd h (by simp)
  | ok u =>
    rw [htx] at h
    cases hf : flushRx e 0 20 with
    | error er => rw [hf] at h; exact absurd h (by simp)
    | ok v =>
      rw [hf] at h
      cases h20 : e.rx 20 with
      | error er => rw [h20] at h; exact absurd h (by simp)
      | ok a =>
        rw [h20] at h
        cases h21 : e.rx 21 with
        | error er => rw [h21] at h; exact absurd h (by simp)
        | ok b =>
          rw [h21] at h
          dsimp only at h
          by_cases hc : cfg.stop < st.cur_phase + cfg.step
          · rw [if_pos hc] at h
            have hout := Except.ok.inj h
            subst hout
            refine ⟨rfl, rfl, rfl, rfl, rfl, ⟨a, b, rfl, rfl, rfl⟩, Or.inr ⟨hc, rfl, ?_, ?_⟩⟩
            · intro hm; rw [hm]
            · intro hm; rw [hm]
          · rw [if_neg hc] at h
            have hout := Except.ok.inj h
            subst hout
            exact ⟨rfl, rfl, rfl, rfl, rfl, ⟨a, b, rfl, rfl, rfl⟩,
              Or.inl ⟨le_of_not_lt hc, rfl, rfl⟩⟩

/-- Claim C9: every completed step appends exactly one phase value and one
power value, the recorded phase and power sequences keep equal lengths, and
the phase recorded for the step equals the phase offset commanded to the
radio for that step's transmission. -/
theorem step_appends_one_sample (cfg : SweepConfig) (e : StepEnv) (st : St)
    (out : StepOut) (h : update cfg e st = .ok out) :
    out.st.ph_hist = st.ph_hist ++ [st.cur_phase] ∧
      (∃ db, out.st.amp_hist = st.amp_hist ++ [db]) ∧
      out.txPhase = st.cur_phase ∧
      out.st.ph_hist.getD (out.st.ph_hist.length - 1) 0 = out.txPhase ∧
      (st.ph_hist.length = st.amp_hist.length →
        out.st.ph_hist.length = out.st.amp_hist.length) := by
  obtain ⟨hph, hamp, htx, _, _, _, _⟩ := update_ok_spec cfg e st out h
  refine ⟨hph, ⟨e.measure out.block, hamp⟩, htx, ?_, ?_⟩
  · rw [hph, htx]
    have hl : (st.ph_hist ++ [st.cur_phase]).length - 1 = st.ph_hist.length := by simp
    rw [hl, List.getD_append_right st.ph_hist [st.cur_phase] 0 st.ph_hist.length (le_refl _)]
    simp
  · intro hlen
    rw [hph, hamp]
    simp [hlen]

/-- Evaluation of one one-shot completing step on concrete data. -/
theorem update_eval_oneShot :
    update cfgW envOk stW = .ok ⟨⟨15, [1, 5], [2, 0], .one_shot, none⟩, 5,
      dcNormalize [⟨1, 0⟩] [⟨1, 0⟩], .halt⟩ := by
  rw [update]
  dsimp only [envOk, cfgW, stW, flushRx]
  rw [if_pos (show (10 : ℚ) < 5 + 10 by norm_num)]
  norm_num [newSummary, annotate_core]

theorem step_appends_one_sample_witness :
    update cfgW envOk stW = .ok ⟨⟨15, [1, 5], [2, 0], .one_shot, none⟩, 5,
        dcNormalize [⟨1, 0⟩] [⟨1, 0⟩], .halt⟩ ∧
      ([1, 5] : List ℚ) = [1] ++ [5] ∧
      (∃ db, ([2, 0] : List ℚ) = [2] ++ [db]) ∧
      ([1, 5] : List ℚ).getD (([1, 5] : List ℚ).length - 1) 0 = 5 ∧
      (([1] : List ℚ).length = ([2] : List ℚ).length →
        ([1, 5] : List ℚ).length = ([2, 0] : List ℚ).length) := by
  have h := update_eval_oneShot
  have hs := step_appends_one_sample cfgW envOk stW _ h
  exact ⟨h, hs.1, hs.2.1, hs.2.2.2.1, fun _ => by simp⟩

/-- Claim C8: in continuous mode, the step that completes a sweep schedules
`start_sweep`, and `start_sweep` clears the sample sequences, resets the
current phase to the start phase and schedules `update` — so no sample of the
prior sweep is retained in the new sweep's sequence. -/
theorem continuous_restart_clears (cfg : SweepConfig) (e : StepEnv) (st : St)
    (out : StepOut) (hmode : st.mode = .continuous)
    (h : update cfg e st = .ok out) (hdone : cfg.stop < out.st.cur_phase) :
    out.next = .startSweep ∧
      (start_sweep cfg out.st).1.ph_hist = [] ∧
      (start_sweep cfg out.st).1.amp_hist = [] ∧
      (start_sweep cfg out.st).1.cur_phase = cfg.start ∧
      (start_sweep cfg out.st).2 = .update := by
  obtain ⟨_, _, _, _, _, _, hbr⟩ := update_ok_spec cfg e st out h
  rcases hbr with ⟨hle, _, _⟩ | ⟨_, _, hcont, _⟩
  · exact absurd hdone (not_lt.mpr hle)
  · exact ⟨hcont hmode, rfl, rfl, rfl, rfl⟩

def stCont : St := ⟨5, [1], [2], .continuous, none⟩

theorem update_eval_continuous :
    update cfgW envOk stCont = .ok ⟨⟨15, [1, 5], [2, 0], .continuous, none⟩, 5,
      dcNormalize [⟨1, 0⟩] [⟨1, 0⟩], .startSweep⟩ := by
  rw [update]
  dsimp only [envOk, cfgW, stCont, flushRx]
  rw [if_pos (show (10 : ℚ) < 5 + 10 by norm_num)]
  norm_num [newSummary, annotate_core]

theorem continuous_restart_clears_witness :
    stCont.mode = .continuous ∧
      update cfgW envOk stCont = .ok ⟨⟨15, [1, 5], [2, 0], .continuous, none⟩, 5,
        dcNormalize [⟨1, 0⟩] [⟨1, 0⟩], .startSweep⟩ ∧
      cfgW.stop < (15 : ℚ) ∧
      (Next.startSweep = Next.startSweep ∧
        (start_sweep cfgW ⟨15, [1, 5], [2, 0], .continuous, none⟩).1.ph_hist = [] ∧
        (start_sweep cfgW ⟨15, [1, 5], [2, 0], .continuous, none⟩).1.amp_hist = [] ∧
        (start_sweep cfgW ⟨15, [1, 5], [2, 0], .continuous, none⟩).1.cur_phase = cfgW.start ∧
        (start_sweep cfgW ⟨15, [1, 5], [2, 0], .continuous, none⟩).2 = .update) := by
  have h := update_eval_continuous
  exact ⟨rfl, h, by norm_num [cfgW],
    continuous_restart_clears cfgW envOk stCont _ rfl h (by norm_num [cfgW])⟩

/-- Amended claim C2: the block handed to spectral analysis is obtained from
two further captures after the 20-capture flush — the step's 21st capture
minus the mean of the 22nd capture (a separate capture taken immediately
after), normalised by the fixed full-scale divisor `2^11`.  DC is removed
using the mean of a subsequent capture, not the mean of the analysed capture
itself. -/
theorem analysis_block_two_captures (cfg : SweepConfig) (e : StepEnv) (st : St)
    (a b : List Cplx) (htx : e.txRes = .ok ())
    (hflush : ∀ j, j < 20 → ∃ c, e.rx j = .ok c)
    (h20 : e.rx 20 = .ok a) (h21 : e.rx 21 = .ok b) :
    ∃ out, update cfg e st = .ok out ∧
      out.block = a.map (fun s => (s.sub (cmean b)).divQ (2 ^ 11)) := by
  have hf : flushRx e 0 20 = .ok () :=
    flushRx_ok e 20 0 (fun j hj => by simpa using hflush j hj)
  rw [update, htx, hf, h20, h21]
  dsimp only
  by_cases hc : cfg.stop < st.cur_phase + cfg.step
  · rw [if_pos hc]
    exact ⟨_, rfl, rfl⟩
  · rw [if_neg hc]
    exact ⟨_, rfl, rfl⟩

theorem analysis_block_two_captures_witness :
    envOk.txRes = .ok () ∧ envOk.rx 20 = .ok [⟨1, 0⟩] ∧ envOk.rx 21 = .ok [⟨1, 0⟩] ∧
      ∃ out, update cfgW envOk stW = .ok out ∧
        out.block = ([⟨1, 0⟩] : List Cplx).map
          (fun s => (s.sub (cmean [⟨1, 0⟩])).divQ (2 ^ 11)) :=
  ⟨rfl, rfl, rfl, analysis_block_two_captures cfgW envOk stW [⟨1, 0⟩] [⟨1, 0⟩] rfl
    (fun _ _ => ⟨[⟨1, 0⟩], rfl⟩) rfl rfl⟩

/-- Counterexample to claim C2 as stated: with a receive stream whose 21st and
22nd captures differ, the block handed to spectral analysis is the 21st
capture minus the mean of the 22nd capture — not the 21st capture DC-removed
by its own mean, as the claim asserts. -/
def envC2 : StepEnv :=
  ⟨.ok (), fun k => if k = 21 then .ok [⟨3, 0⟩, ⟨5, 0⟩] else .ok [⟨1, 0⟩, ⟨1, 0⟩],
    fun _ => 0⟩

theorem dc_removal_not_same_capture :
    (update cfgW envC2 stW).map StepOut.block =
      .ok (dcNormalize [⟨1, 0⟩, ⟨1, 0⟩] [⟨3, 0⟩, ⟨5, 0⟩]) ∧
      dcNormalize [⟨1, 0⟩, ⟨1, 0⟩] [⟨3, 0⟩, ⟨5, 0⟩] ≠
        ([⟨1, 0⟩, ⟨1, 0⟩] : List Cplx).map
          (fun s => (s.sub (cmean [⟨1, 0⟩, ⟨1, 0⟩])).divQ (2 ^ 11)) := by
  constructor
  · have h : update cfgW envC2 stW = .ok ⟨⟨15, [1, 5], [2, 0], .one_shot, none⟩, 5,
        dcNormalize [⟨1, 0⟩, ⟨1, 0⟩] [⟨3, 0⟩, ⟨5, 0⟩], .halt⟩ := by
      rw [update]
      norm_num [envC2, cfgW, stW, flushRx, newSummary, annotate_core]
    rw [h]
    rfl
  · norm_num [dcNormalize, cmean, Cplx.sub, Cplx.divQ]

/-- Claim C6: for every sample sequence of length less than 5, the estimator
returns the insufficient-data signal (`none`) and the stored annotation is
left unchanged. -/
theorem insufficient_data_skips (phases amps : List ℚ) (old : Option PhaseSummary)
    (h : amps.length < 5) :
    annotate_core phases amps = none ∧ newSummary old phases amps = old := by
  have hnone : annotate_core phases amps = none := by rw [annotate_core, if_pos h]
  exact ⟨hnone, by simp only [newSummary, hnone]⟩

theorem insufficient_data_skips_witness :
    ([0, -1, -2, -3] : List ℚ).length < 5 ∧
      (annotate_core [(-10), -5, 0, 5] [0, -1, -2, -3] = none ∧
        newSummary (some ⟨1, 2, 3, 4, 5, 6⟩) [(-10), -5, 0, 5] [0, -1, -2, -3] =
          some ⟨1, 2, 3, 4, 5, 6⟩) :=
  ⟨by decide, insufficient_data_skips [(-10), -5, 0, 5] [0, -1, -2, -3]
    (some ⟨1, 2, 3, 4, 5, 6⟩) (by decide)⟩

theorem c1_left_eval :
    scanLeft [-10, -5, 0, 5, 10] [-10, -5, 0, -5, -10] (-3) (-10) 2 = -3 := by
  have h : scanLeft [-10, -5, 0, 5, 10] [-10, -5, 0, -5, -10] (-3) (-10) 2 =
      np_interp (-3) (-5) 0 (-5) 0 := rfl
  rw [h]
  norm_num [np_interp]

theorem c1_right_eval :
    scanRight [-10, -5, 0, 5, 10] [-10, -5, 0, -5, -10] (-3) 10 3 = 5 := by
  rw [scanRight]
  norm_num [np_interp]

theorem annotate_c1_eval :
    annotate_core [-10, -5, 0, 5, 10] [-10, -5, 0, -5, -10] =
      some ⟨0, 0, -3, -3, 5, 8⟩ := by
  rw [annotate_core, if_neg (by norm_num)]
  rw [show argmax [-10, -5, 0, -5, -10] = 2 from by decide]
  norm_num [c1_left_eval, c1_right_eval]

/-- Evaluation of the estimator on the symmetric 5-point curve of claim C1:
the peak is at phase 0 with power 0 dB and the threshold is −3 dB, and the
left crossing −3 is obtained by linear interpolation; but the right crossing
is 5 (the phase of the first below-threshold sample, because `np.interp` is
called with a decreasing `xp` and returns its last `fp` entry), so
`hpbw_phase_deg` is 8, not ≈ 6. -/
theorem symmetric_lobe_eval :
    annotate_core [-10, -5, 0, 5, 10] [-10, -5, 0, -5, -10] =
      some ⟨0, 0, -3, -3, 5, 8⟩ :=
  annotate_c1_eval

/-- Claim C7: for every phase offset and positive wavelength and spacing, the
converted angle lies within [−90°, 90°]. -/
theorem angle_within_pm_ninety (phase lam d : ℝ) (_hlam : 0 < lam) (_hd : 0 < d) :
    -90 ≤ phase_to_angle phase lam d ∧ phase_to_angle phase lam d ≤ 90 := by
  have hπ : (0 : ℝ) < Real.pi := Real.pi_pos
  have h1 : Real.arcsin (spatial_sine phase lam d) ≤ Real.pi / 2 :=
    Real.arcsin_le_pi_div_two _
  have h2 : -(Real.pi / 2) ≤ Real.arcsin (spatial_sine phase lam d) :=
    Real.neg_pi_div_two_le_arcsin _
  rw [phase_to_angle]
  constructor
  · rw [le_div_iff₀ hπ]
    linarith
  · rw [div_le_iff₀ hπ]
    linarith

theorem angle_within_pm_ninety_witness :
    (0 : ℝ) < 1 ∧ (0 : ℝ) < 1 ∧
      (-90 ≤ phase_to_angle 100000 1 1 ∧ phase_to_angle 100000 1 1 ≤ 90) :=
  ⟨one_pos, one_pos, angle_within_pm_ninety 100000 1 1 one_pos one_pos⟩

/-! ### The phase sequence of a completed sweep -/

/-- Invariant of the scheduled-update loop: if the recorded phases so far are
`start + k * step` and the current phase is the next term with the stop not
yet exceeded, then any completed run extends the recorded phases with further
terms of the same arithmetic sequence and ends at or below the stop. -/
theorem runUpdates_invariant (cfg : SweepConfig) (env : ℕ → StepEnv) :
    ∀ fuel (st stF : St) (nx : Next),
      (∀ k, k < st.ph_hist.length →
        st.ph_hist.getD k 0 = cfg.start + k * cfg.step) →
      st.cur_phase = cfg.start + st.ph_hist.length * cfg.step →
      st.cur_phase ≤ cfg.stop →
      runUpdates cfg env fuel st = some (.ok (stF, nx)) →
      (st.ph_hist.length < stF.ph_hist.length ∧
        (∀ k, k < stF.ph_hist.length →
          stF.ph_hist.getD k 0 = cfg.start + k * cfg.step) ∧
        stF.ph_hist.getD (stF.ph_hist.length - 1) 0 ≤ cfg.stop) := by
  intro fuel
  induction fuel with
  | zero =>
      intro st stF nx _ _ _ hrun
      exact absurd hrun (by simp [runUpdates])
  | succ fuel ih =>
      intro st stF nx hform hcur hle hrun
      rw [runUpdates] at hrun
      cases hu : update cfg (env st.ph_hist.length) st with
      | error er =>
          rw [hu] at hrun
          exact absurd hrun (by simp)
      | ok out =>
          rw [hu] at hrun
          obtain ⟨hph, _, _, hcurout, _, _, hbr⟩ :=
            update_ok_spec cfg (env st.ph_hist.length) st out hu
          have hlen : out.st.ph_hist.length = st.ph_hist.length + 1 := by
            rw [hph]; simp
          have hform' : ∀ k, k < out.st.ph_hist.length →
              out.st.ph_hist.getD k 0 = cfg.start + k * cfg.step := by
            intro k hk
            rw [hlen] at hk
            rcases Nat.lt_succ_iff_lt_or_eq.mp hk with h' | h'
            · rw [hph, List.getD_append _ _ _ _ h']
              exact hform k h'
            · subst h'
              rw [hph, List.getD_append_right _ _ _ _ (le_refl _)]
              simp [hcur]
          have hcur' : out.st.cur_phase =
              cfg.start + out.st.ph_hist.length * cfg.step := by
            rw [hcurout, hcur, hlen]
            push_cast
            ring
          have hlast : out.st.ph_hist.getD (out.st.ph_hist.length - 1) 0 =
              st.cur_phase := by
            rw [hph]
            have h1 : (st.ph_hist ++ [st.cur_phase]).length - 1 = st.ph_hist.length := by
              simp
            rw [h1, List.getD_append_right _ _ _ _ (le_refl _)]
            simp
          dsimp only at hrun
          rcases hbr with ⟨hle', hnx, _⟩ | ⟨hgt, _, hcont, hone⟩
          · rw [hnx] at hrun
            dsimp only at hrun
            have hres := ih out.st stF nx hform' hcur' hle' hrun
            exact ⟨by omega, hres.2.1, hres.2.2⟩
          · have hnothing : ∃ nx', nx' ≠ Next.update ∧ out.next = nx' := by
              cases hm : out.st.mode with
              | continuous =>
                  have : st.mode = .continuous := by
                    obtain ⟨_, _, _, _, hmode, _, _⟩ :=
                      update_ok_spec cfg (env st.ph_hist.length) st out hu
                    rw [← hmode, hm]
                  exact ⟨.startSweep, by simp, hcont this⟩
              | one_shot =>
                  have : st.mode = .one_shot := by
                    obtain ⟨_, _, _, _, hmode, _, _⟩ :=
                      update_ok_spec cfg (env st.ph_hist.length) st out hu
                    rw [← hmode, hm]
                  exact ⟨.halt, by simp, hone this⟩
            obtain ⟨nx', hnx', hout⟩ := hnothing
            rw [hout] at hrun
            have hstf : stF = out.st := by
              cases nx' with
              | update => exact absurd rfl hnx'
              | startSweep =>
                  dsimp only at hrun
                  simp only [Option.some.injEq, Except.ok.injEq, Prod.mk.injEq] at hrun
                  exact hrun.1.symm
              | halt =>
                  dsimp only at hrun
                  simp only [Option.some.injEq, Except.ok.injEq, Prod.mk.injEq] at hrun
                  exact hrun.1.symm
            subst hstf
            refine ⟨by omega, hform', ?_⟩
            rw [hlast]
            exact hle

/-- Claim C5: for every valid sweep configuration (`0 < step`,
`start < stop`), the phase sequence of a completed one-shot run started by
`start_sweep` is the arithmetic sequence `start + k * step`, non-empty,
strictly increasing (hence duplicate-free), with its last element at most
`stop`. -/
theorem sweep_phases_arithmetic (cfg : SweepConfig) (env : ℕ → StepEnv)
    (fuel : ℕ) (st0 stF : St) (nx : Next)
    (hstep : 0 < cfg.step) (hrange : cfg.start < cfg.stop)
    (hrun : runUpdates cfg env fuel (start_sweep cfg st0).1 = some (.ok (stF, nx))) :
    stF.ph_hist ≠ [] ∧
      (∀ k, k < stF.ph_hist.length →
        stF.ph_hist.getD k 0 = cfg.start + k * cfg.step) ∧
      stF.ph_hist.Pairwise (· < ·) ∧
      stF.ph_hist.getD (stF.ph_hist.length - 1) 0 ≤ cfg.stop := by
  have hres := runUpdates_invariant cfg env fuel (start_sweep cfg st0).1 stF nx
    (by intro k hk; simp [start_sweep] at hk)
    (by simp [start_sweep])
    (by simp only [start_sweep]; exact hrange.le)
    hrun
  have hpos : 0 < stF.ph_hist.length := by
    have := hres.1
    simp only [start_sweep] at this
    simpa using Nat.lt_of_le_of_lt (Nat.zero_le _) this
  refine ⟨List.length_pos.mp hpos, hres.2.1, ?_, hres.2.2⟩
  rw [List.pairwise_iff_get]
  intro i j hij
  rw [List.get_eq_getElem, List.get_eq_getElem,
    ← List.getD_eq_getElem stF.ph_hist 0 i.isLt, ← List.getD_eq_getElem stF.ph_hist 0 j.isLt,
    hres.2.1 i i.isLt, hres.2.1 j j.isLt]
  have hij' : (i : ℚ) < (j : ℚ) := by exact_mod_cast hij
  have := mul_lt_mul_of_pos_right hij' hstep
  linarith

theorem runUpdates_eval :
    runUpdates cfgW (fun _ => envOk) 4 (start_sweep cfgW stW).1 =
      some (.ok (⟨20, [-10, 0, 10], [0, 0, 0], .one_shot, none⟩, .halt)) := by
  have hA : update cfgW envOk ⟨-10, [], [], .one_shot, none⟩ =
      .ok ⟨⟨0, [-10], [0], .one_shot, none⟩, -10, dcNormalize [⟨1, 0⟩] [⟨1, 0⟩], .update⟩ := by
    rw [update]
    dsimp only [envOk, cfgW, flushRx]
    rw [if_neg (show ¬ (10 : ℚ) < -10 + 10 by norm_num)]
    norm_num
  have hB : update cfgW envOk ⟨0, [-10], [0], .one_shot, none⟩ =
      .ok ⟨⟨10, [-10, 0], [0, 0], .one_shot, none⟩, 0, dcNormalize [⟨1, 0⟩] [⟨1, 0⟩], .update⟩ := by
    rw [update]
    dsimp only [envOk, cfgW, flushRx]
    rw [if_neg (show ¬ (10 : ℚ) < 0 + 10 by norm_num)]
    norm_num
  have hC : update cfgW envOk ⟨10, [-10, 0], [0, 0], .one_shot, none⟩ =
      .ok ⟨⟨20, [-10, 0, 10], [0, 0, 0], .one_shot, none⟩, 10,
        dcNormalize [⟨1, 0⟩] [⟨1, 0⟩], .halt⟩ := by
    rw [update]
    dsimp only [envOk, cfgW, flushRx]
    rw [if_pos (show (10 : ℚ) < 10 + 10 by norm_num)]
    norm_num [newSummary, annotate_core]
  show runUpdates cfgW (fun _ => envOk) 4 ⟨-10, [], [], .one_shot, none⟩ = _
  rw [runUpdates, hA]
  show runUpdates cfgW (fun _ => envOk) 3 ⟨0, [-10], [0], .one_shot, none⟩ = _
  rw [runUpdates, hB]
  show runUpdates cfgW (fun _ => envOk) 2 ⟨10, [-10, 0], [0, 0], .one_shot, none⟩ = _
  rw [runUpdates, hC]

theorem sweep_phases_arithmetic_witness :
    (0 : ℚ) < 10 ∧ (-10 : ℚ) < 10 ∧
      runUpdates cfgW (fun _ => envOk) 4 (start_sweep cfgW stW).1 =
        some (.ok (⟨20, [-10, 0, 10], [0, 0, 0], .one_shot, none⟩, .halt)) ∧
      (([(-10), 0, 10] : List ℚ) ≠ [] ∧
        (∀ k, k < ([(-10), 0, 10] : List ℚ).length →
          ([(-10), 0, 10] : List ℚ).getD k 0 = -10 + k * 10) ∧
        ([(-10), 0, 10] : List ℚ).Pairwise (· < ·) ∧
        ([(-10), 0, 10] : List ℚ).getD (([(-10), 0, 10] : List ℚ).length - 1) 0 ≤ 10) :=
  ⟨by norm_num, by norm_num, runUpdates_eval,
    sweep_phases_arithmetic cfgW (fun _ => envOk) 4 stW
      ⟨20, [-10, 0, 10], [0, 0, 0], .one_shot, none⟩ .halt
      (by norm_num [cfgW]) (by norm_num [cfgW]) runUpdates_eval⟩

theorem left_crossing_spec_witness :
    annotate_core [-10, -5, 0, 5, 10] [-10, -5, 0, -5, -10] =
        some ⟨0, 0, -3, -3, 5, 8⟩ ∧
      ((∃ i, i < argmax [-10, -5, 0, -5, -10] ∧
          ([(-10), -5, 0, -5, -10] : List ℚ).getD i 0 < -3 ∧
          (∀ j, i < j → j < argmax [-10, -5, 0, -5, -10] →
            ¬ ([(-10), -5, 0, -5, -10] : List ℚ).getD j 0 < -3) ∧
          (-3 : ℚ) ≤ ([(-10), -5, 0, -5, -10] : List ℚ).getD (i + 1) 0 ∧
          ((-3 : ℚ) - ([(-10), -5, 0, 5, 10] : List ℚ).getD i 0) *
              (([(-10), -5, 0, -5, -10] : List ℚ).getD (i + 1) 0 -
                ([(-10), -5, 0, -5, -10] : List ℚ).getD i 0) =
            ((-3 : ℚ) - ([(-10), -5, 0, -5, -10] : List ℚ).getD i 0) *
              (([(-10), -5, 0, 5, 10] : List ℚ).getD (i + 1) 0 -
                ([(-10), -5, 0, 5, 10] : List ℚ).getD i 0)) ∨
        ((∀ i, i < argmax [-10, -5, 0, -5, -10] →
            ¬ ([(-10), -5, 0, -5, -10] : List ℚ).getD i 0 < -3) ∧
          (-3 : ℚ) = ([(-10), -5, 0, 5, 10] : List ℚ).getD 0 0)) :=
  ⟨annotate_c1_eval,
    left_crossing_spec [-10, -5, 0, 5, 10] [-10, -5, 0, -5, -10]
      ⟨0, 0, -3, -3, 5, 8⟩ annotate_c1_eval⟩

theorem hpbw_bounds_of_sorted_witness :
    ([(-10), -5, 0, 5, 10] : List ℚ).length = ([(-10), -5, 0, -5, -10] : List ℚ).length ∧
      ([(-10), -5, 0, 5, 10] : List ℚ).Pairwise (· < ·) ∧
      annotate_core [-10, -5, 0, 5, 10] [-10, -5, 0, -5, -10] =
        some ⟨0, 0, -3, -3, 5, 8⟩ ∧
      (([(-10), -5, 0, 5, 10] : List ℚ).getD 0 0 ≤ -3 ∧ (-3 : ℚ) ≤ 0 ∧
        (0 : ℚ) ≤ 5 ∧
        (5 : ℚ) ≤ ([(-10), -5, 0, 5, 10] : List ℚ).getD
          (([(-10), -5, 0, 5, 10] : List ℚ).length - 1) 0 ∧
        (0 : ℚ) ≤ 8) :=
  ⟨rfl, by decide, annotate_c1_eval,
    hpbw_bounds_of_sorted [-10, -5, 0, 5, 10] [-10, -5, 0, -5, -10]
      ⟨0, 0, -3, -3, 5, 8⟩ rfl (by decide) annotate_c1_eval⟩

end PlutoBeam
